import Mathlib

/-!
Verification of the CMAC module (`include/mbedtls/cmac.h`) of this
repository: subkey derivation, message padding and chaining, tag
generation, constant-time verification, context lifecycle and the
AES-CMAC-PRF-128 wrapper (RFC 4493 / RFC 4615).

Bytes are modelled as natural numbers below 256; blocks and messages as
`List Nat`.  The underlying block cipher is an external collaborator and
is modelled as a parameter `E : List Nat → List Nat` giving single-block
encryption under the current key.  The implementation file `cmac.c` is
not part of the sources available here (only the public header is), so
the behaviour of each operation is modelled from the specification, as
marked on each definition.
-/

namespace Cmac

/-- Error codes, from the header `cmac.h`. -/
def MBEDTLS_ERR_CMAC_BAD_INPUT : Int := -0x0011

/-- Error code for a failed verification, from the header `cmac.h`. -/
def MBEDTLS_ERR_CMAC_VERIFY_FAILED : Int := -0x0013

/-- Error code for an allocation failure, from the header `cmac.h`. -/
def MBEDTLS_ERR_CMAC_ALLOC_FAILED : Int := -0x0015

/-- The error kinds a CMAC operation can report. -/
inductive CmacError where
  | badInput
  | verifyFailed
  | allocFailed
deriving DecidableEq, Repr

/-- The integer code each error kind is reported as, per the header. -/
def errCode : CmacError → Int
  | .badInput => MBEDTLS_ERR_CMAC_BAD_INPUT
  | .verifyFailed => MBEDTLS_ERR_CMAC_VERIFY_FAILED
  | .allocFailed => MBEDTLS_ERR_CMAC_ALLOC_FAILED

/-- Byte-wise XOR of two equal-length blocks. -/
def xorBytes (xs ys : List Nat) : List Nat := List.zipWith Nat.xor xs ys

/-- The all-zero block of size `b`. -/
def zeroBlock (b : Nat) : List Nat := List.replicate b 0

/-- Modelled from the spec: the block-size-specific constant Rb used in
subkey derivation: `0x1B` for block size 8, `0x87` for block size 16. -/
def rbConst (b : Nat) : Nat := if b = 8 then 0x1B else 0x87

/-- The Rb constant as a block: it only affects the last byte. -/
def rbBlock (b : Nat) : List Nat := List.replicate (b - 1) 0 ++ [rbConst b]

/-- Modelled from the spec: a 1-bit left shift of the whole block treated
as a big-endian integer, discarding the carried-out top bit and shifting
in a 0 at the bottom. -/
def leftShift1 : List Nat → List Nat
  | [] => []
  | [x] => [x * 2 % 256]
  | x :: y :: rest => (x * 2 % 256 + y / 128) :: leftShift1 (y :: rest)

/-- Whether the most-significant bit of a big-endian block is set. -/
def msb (l : List Nat) : Bool := decide (128 ≤ l.headD 0)

/-- The value of a block read as a big-endian integer. -/
def beNat : List Nat → Nat
  | [] => 0
  | x :: rest => x * 256 ^ rest.length + beNat rest

/-- Modelled from the spec: subkey K1 is the left shift of
`L = E(zero block)`, XORed with Rb exactly when the top bit of `L` is
set (the missing `cmac.c` computes it in `mbedtls_cmac_setkey`). -/
def deriveK1 (E : List Nat → List Nat) (b : Nat) : List Nat :=
  let L := E (zeroBlock b)
  if msb L then xorBytes (leftShift1 L) (rbBlock b) else leftShift1 L

/-- Modelled from the spec: subkey K2 is the left shift of K1, XORed with
Rb exactly when the top bit of K1 is set. -/
def deriveK2 (E : List Nat → List Nat) (b : Nat) : List Nat :=
  let K1 := deriveK1 E b
  if msb K1 then xorBytes (leftShift1 K1) (rbBlock b) else leftShift1 K1

/-- Modelled from the spec: a message is block-complete iff its length is
a positive exact multiple of the block size. -/
def blockComplete (b n : Nat) : Bool := decide (0 < n) && decide (n % b = 0)

/-- Modelled from the spec: the number of chaining blocks before the
final one, `q - 1`, where `q = ceil(n / b)` if `n > 0` else `1`. -/
def numPrefixBlocks (b n : Nat) : Nat :=
  if blockComplete b n then n / b - 1 else n / b

/-- The first `q - 1` full blocks of the message. -/
def chainBlocks (b : Nat) (m : List Nat) : List (List Nat) :=
  (List.range (numPrefixBlocks b m.length)).map fun i => (m.drop (i * b)).take b

/-- Modelled from the spec: an incomplete final block is padded with a
single `0x80` byte and then zeros up to the block size. -/
def padBlock (b : Nat) (tail : List Nat) : List Nat :=
  tail ++ 0x80 :: List.replicate (b - tail.length - 1) 0

/-- Modelled from the spec: the final block fed to the last cipher step:
the literal last `b` bytes XORed with K1 when block-complete, otherwise
the `0x80`-padded tail XORed with K2. -/
def lastBlockMasked (K1 K2 : List Nat) (b : Nat) (m : List Nat) : List Nat :=
  let tail := m.drop (numPrefixBlocks b m.length * b)
  if blockComplete b m.length then xorBytes tail K1
  else xorBytes (padBlock b tail) K2

/-- One CBC-MAC chaining step: encrypt the previous value XOR the block. -/
def chainStep (E : List Nat → List Nat) (c blk : List Nat) : List Nat :=
  E (xorBytes c blk)

/-- Modelled from the spec: the raw full-block tag of the MAC core,
obtained by chaining all prefix blocks from the zero block and then
encrypting the masked final block. -/
def rawTag (E : List Nat → List Nat) (K1 K2 : List Nat) (b : Nat)
    (m : List Nat) : List Nat :=
  E (xorBytes ((chainBlocks b m).foldl (chainStep E) (zeroBlock b))
      (lastBlockMasked K1 K2 b m))

/-- The declarative chaining sequence of RFC 4493: `C_0` is the zero
block and `C_i = E(C_{i-1} XOR M_i)`. -/
def chainC (E : List Nat → List Nat) (b : Nat) (m : List Nat) : Nat → List Nat
  | 0 => zeroBlock b
  | i + 1 => E (xorBytes (chainC E b m i) ((m.drop (i * b)).take b))

/-- Modelled from the spec: a requested tag length is valid iff it is
even and between 2 and the block size. -/
def validTagLen (b t : Nat) : Bool :=
  decide (2 ≤ t) && decide (t ≤ b) && decide (t % 2 = 0)

/-- Modelled from the spec: `mbedtls_cmac_generate` (its `cmac.c` body is
missing here): validate the tag length, then return the first `tag_len`
bytes of the raw tag. -/
def mbedtls_cmac_generate (E : List Nat → List Nat) (K1 K2 : List Nat)
    (b : Nat) (m : List Nat) (t : Nat) : Except CmacError (List Nat) :=
  if validTagLen b t then .ok ((rawTag E K1 K2 b m).take t)
  else .error .badInput

/-- Constant-time comparison loop: accumulated OR of byte XORs, paired
with the number of byte pairs examined. -/
def ctDiffSteps : List Nat → List Nat → Nat × Nat
  | x :: xs, y :: ys =>
    let p := ctDiffSteps xs ys
    (Nat.lor p.1 (Nat.xor x y), p.2 + 1)
  | _, _ => (0, 0)

/-- The accumulated difference of the constant-time comparison. -/
def ctCompare (xs ys : List Nat) : Nat := (ctDiffSteps xs ys).1

/-- The number of byte pairs the constant-time comparison examines. -/
def ctSteps (xs ys : List Nat) : Nat := (ctDiffSteps xs ys).2

/-- Modelled from the spec: `mbedtls_cmac_verify` (its `cmac.c` body is
missing here): recompute the truncated tag and compare with the
accumulate-then-check constant-time comparison. -/
def mbedtls_cmac_verify (E : List Nat → List Nat) (K1 K2 : List Nat)
    (b : Nat) (m : List Nat) (tag : List Nat) : Except CmacError Unit :=
  if validTagLen b tag.length then
    if ctCompare ((rawTag E K1 K2 b m).take tag.length) tag = 0 then .ok ()
    else .error .verifyFailed
  else .error .badInput

/-- The number of byte pairs `mbedtls_cmac_verify` compares. -/
def verifySteps (E : List Nat → List Nat) (K1 K2 : List Nat) (b : Nat)
    (m : List Nat) (tag : List Nat) : Nat :=
  if validTagLen b tag.length then
    ctSteps ((rawTag E K1 K2 b m).take tag.length) tag
  else 0

/-- The CMAC context: whether a cipher engine is bound, its block size,
and the two derived subkeys (absent before `setkey`). -/
structure mbedtls_cmac_context where
  bound : Bool
  blockSize : Nat
  K1 : Option (List Nat)
  K2 : Option (List Nat)
deriving DecidableEq, Repr

/-- Modelled from the spec: `mbedtls_cmac_init` binds no cipher and
allocates nothing (its `cmac.c` body is missing here). -/
def mbedtls_cmac_init : mbedtls_cmac_context :=
  { bound := false, blockSize := 0, K1 := none, K2 := none }

/-- Modelled from the spec: secure erasure of the subkey buffers:
each allocated subkey is overwritten with zero bytes in place. -/
def eraseSubkeys (ctx : mbedtls_cmac_context) : mbedtls_cmac_context :=
  { ctx with
    K1 := ctx.K1.map fun l => List.replicate l.length 0
    K2 := ctx.K2.map fun l => List.replicate l.length 0 }

/-- Modelled from the spec: `mbedtls_cmac_setkey` (its `cmac.c` body is
missing here): reject block sizes other than 8 and 16, securely erase any
previous subkeys, bind the cipher and derive and store K1 and K2.  The
keyed cipher is abstracted as its single-block encryption `E`. -/
def mbedtls_cmac_setkey (ctx : mbedtls_cmac_context) (b : Nat)
    (E : List Nat → List Nat) : Except CmacError mbedtls_cmac_context :=
  if b = 8 ∨ b = 16 then
    let erased := eraseSubkeys ctx
    .ok { erased with
          bound := true
          blockSize := b
          K1 := some (deriveK1 E b)
          K2 := some (deriveK2 E b) }
  else .error .badInput

/-- Modelled from the spec: `mbedtls_cmac_free` (its `cmac.c` body is
missing here): overwrite the subkeys with zeros, then release them and
the cipher engine, leaving the context unusable until re-init+setkey. -/
def mbedtls_cmac_free (ctx : mbedtls_cmac_context) : mbedtls_cmac_context :=
  let erased := eraseSubkeys ctx
  { erased with bound := false, blockSize := 0, K1 := none, K2 := none }

/-- The truncated CMAC tag of a 16-byte-block cipher at full length 16,
as used by the PRF wrapper (subkeys derived from `E` itself). -/
def cmacTag16 (E : List Nat → List Nat) (m : List Nat) : List Nat :=
  (rawTag E (deriveK1 E 16) (deriveK2 E 16) 16 m).take 16

/-- Modelled from the spec: `mbedtls_aes_cmac_prf_128` (its `cmac.c` body
is missing here): a 16-byte key is used directly as the AES-128 key;
otherwise the key is first compressed by CMAC under the all-zero 16-byte
key; the output is the full 16-byte CMAC of the message under that key.
`AES k` is single-block AES-128 encryption under key `k`. -/
def mbedtls_aes_cmac_prf_128 (AES : List Nat → List Nat → List Nat)
    (key m : List Nat) : List Nat :=
  let zeroKey := List.replicate 16 0
  let k := if key.length = 16 then key else cmacTag16 (AES zeroKey) key
  cmacTag16 (AES k) m

/-- A toy 16-byte-block cipher used only to instantiate theorems at
concrete inputs: pad-or-truncate to 16 bytes, then mangle each byte. -/
def toyCipher (x : List Nat) : List Nat :=
  ((x ++ List.replicate 16 0).take 16).map fun v => (v * 5 + 7) % 256

/-- A toy 8-byte-block cipher for concrete instantiations. -/
def toyCipher8 (x : List Nat) : List Nat :=
  ((x ++ List.replicate 8 0).take 8).map fun v => (v * 3 + 1) % 256

theorem lorZeroIff (a b : Nat) : a ||| b = 0 ↔ a = 0 ∧ b = 0 := by
  constructor
  · intro h
    constructor <;>
      refine Nat.zero_of_testBit_eq_false fun i => ?_
    · have h2 : (a ||| b).testBit i = false := by rw [h]; simp
      rw [Nat.testBit_lor] at h2
      exact (Bool.or_eq_false_iff.mp h2).1
    · have h2 : (a ||| b).testBit i = false := by rw [h]; simp
      rw [Nat.testBit_lor] at h2
      exact (Bool.or_eq_false_iff.mp h2).2
  · rintro ⟨rfl, rfl⟩; rfl

theorem ctSteps_length (xs : List Nat) :
    ∀ ys : List Nat, ctSteps xs ys = min xs.length ys.length := by
  induction xs with
  | nil => intro ys; cases ys <;> simp [ctSteps, ctDiffSteps]
  | cons x xs ih =>
    intro ys
    cases ys with
    | nil => simp [ctSteps, ctDiffSteps]
    | cons y ys =>
      show (ctDiffSteps xs ys).2 + 1 = _
      have h := ih ys
      rw [ctSteps] at h
      rw [h]
      simp
      omega

theorem ctCompare_self (xs : List Nat) : ctCompare xs xs = 0 := by
  induction xs with
  | nil => rfl
  | cons x xs ih =>
    show (ctDiffSteps xs xs).1 ||| (x ^^^ x) = 0
    rw [Nat.xor_self]
    rw [ctCompare] at ih
    simp [ih]

theorem ctCompare_eq_zero_iff (xs : List Nat) :
    ∀ ys : List Nat, xs.length = ys.length → (ctCompare xs ys = 0 ↔ xs = ys) := by
  induction xs with
  | nil =>
    intro ys h
    cases ys with
    | nil => simp [ctCompare, ctDiffSteps]
    | cons y ys => simp at h
  | cons x xs ih =>
    intro ys h
    cases ys with
    | nil => simp at h
    | cons y ys =>
      have hlen : xs.length = ys.length := by simpa using h
      constructor
      · intro h0
        have h1 : (ctDiffSteps xs ys).1 ||| (x ^^^ y) = 0 := h0
        obtain ⟨hA, hB⟩ := (lorZeroIff _ _).mp h1
        have hx : x = y := Nat.xor_eq_zero.mp hB
        have hxs : xs = ys := (ih ys hlen).mp hA
        rw [hx, hxs]
      · intro h0
        rw [h0]
        exact ctCompare_self _

theorem range_chain_foldl (E : List Nat → List Nat) (b : Nat) (m : List Nat) :
    ∀ k : Nat,
      ((List.range k).map fun i => (m.drop (i * b)).take b).foldl
        (chainStep E) (zeroBlock b) = chainC E b m k := by
  intro k
  induction k with
  | zero => simp [chainC]
  | succ n ih =>
    rw [List.range_succ, List.map_append, List.foldl_append]
    simp [chainC, chainStep, ih]

/-- C2: the final block fed to the last cipher step: the literal last
`b` bytes XORed with K1 when the length is a positive exact multiple of
`b`, otherwise the tail padded with `0x80` and zeros XORed with K2; the
empty message is the single padded block `{0x80, 0, ...}` masked with
K2. -/
theorem cmac_final_block_selection (K1 K2 : List Nat) (b : Nat)
    (m : List Nat) (hb : 0 < b) :
    (0 < m.length → b ∣ m.length →
      lastBlockMasked K1 K2 b m = xorBytes (m.drop (m.length - b)) K1) ∧
    (¬(0 < m.length ∧ b ∣ m.length) →
      lastBlockMasked K1 K2 b m =
        xorBytes (m.drop (m.length / b * b) ++
          0x80 :: List.replicate (b - m.length % b - 1) 0) K2) ∧
    lastBlockMasked K1 K2 b ([] : List Nat) =
      xorBytes (0x80 :: List.replicate (b - 1) 0) K2 := by
  refine ⟨?_, ?_, ?_⟩
  · intro hpos hdvd
    have hmod : m.length % b = 0 := Nat.dvd_iff_mod_eq_zero.mp hdvd
    have hbc : blockComplete b m.length = true := by
      simp [blockComplete, hpos, hmod]
    have hq : m.length / b * b = m.length := Nat.div_mul_cancel hdvd
    have hidx : numPrefixBlocks b m.length * b = m.length - b := by
      rw [numPrefixBlocks, if_pos hbc, Nat.sub_one_mul, hq]
    rw [lastBlockMasked]
    simp only [hbc, if_true, hidx]
  · intro hnc
    have hbc : blockComplete b m.length = false := by
      rw [blockComplete]
      rcases Nat.eq_zero_or_pos m.length with h0 | hp
      · simp [h0]
      · have hdp : decide (0 < m.length) = true := by simp [hp]
        rw [hdp]
        simp only [Bool.true_and, decide_eq_false_iff_not]
        intro hmod
        exact hnc ⟨hp, Nat.dvd_iff_mod_eq_zero.mpr hmod⟩
    have hnp : numPrefixBlocks b m.length = m.length / b := by
      rw [numPrefixBlocks, if_neg]
      simp [hbc]
    have hdm := Nat.div_add_mod m.length b
    rw [Nat.mul_comm] at hdm
    have hlen : (m.drop (m.length / b * b)).length = m.length % b := by
      rw [List.length_drop]
      omega
    rw [lastBlockMasked]
    simp only [hbc, Bool.false_eq_true, if_false, hnp, padBlock, hlen]
  · rw [lastBlockMasked]
    simp [blockComplete, numPrefixBlocks, padBlock]

/-- Closed instance of `cmac_final_block_selection`: the empty message
at block size 16. -/
theorem cmac_final_block_selection_witness :
    (0 : Nat) < 16 ∧
    lastBlockMasked (zeroBlock 16) (zeroBlock 16) 16 ([] : List Nat) =
      xorBytes (0x80 :: List.replicate (16 - 1) 0) (zeroBlock 16) :=
  ⟨by decide,
   (cmac_final_block_selection (zeroBlock 16) (zeroBlock 16) 16 []
      (by decide)).2.2⟩

/-- C6: the tag length is valid iff it lies in {2,4,6,8} for block size
8 and {2,4,6,8,10,12,14,16} for block size 16; an invalid tag length
yields `badInput` from both generate and verify, for every cipher (so no
cipher operation is performed). -/
theorem cmac_tag_length_validation (E : List Nat → List Nat)
    (K1 K2 : List Nat) (b : Nat) (m : List Nat) (t : Nat)
    (tag : List Nat) :
    (validTagLen 8 t = true ↔ t = 2 ∨ t = 4 ∨ t = 6 ∨ t = 8) ∧
    (validTagLen 16 t = true ↔
      t = 2 ∨ t = 4 ∨ t = 6 ∨ t = 8 ∨ t = 10 ∨ t = 12 ∨ t = 14 ∨ t = 16) ∧
    (validTagLen b t = false →
      mbedtls_cmac_generate E K1 K2 b m t = .error .badInput) ∧
    (validTagLen b tag.length = false →
      mbedtls_cmac_verify E K1 K2 b m tag = .error .badInput) := by
  refine ⟨?_, ?_, ?_, ?_⟩
  · rw [validTagLen]
    simp only [Bool.and_eq_true, decide_eq_true_eq]
    omega
  · rw [validTagLen]
    simp only [Bool.and_eq_true, decide_eq_true_eq]
    omega
  · intro h
    rw [mbedtls_cmac_generate, if_neg]
    simp [h]
  · intro h
    rw [mbedtls_cmac_verify, if_neg]
    simp [h]

/-- Closed instance of `cmac_tag_length_validation`: t = 15 rejected at
block size 16, t = 10 rejected at block size 8. -/
theorem cmac_tag_length_validation_witness :
    validTagLen 16 15 = false ∧ validTagLen 8 10 = false ∧
    mbedtls_cmac_generate toyCipher (zeroBlock 16) (zeroBlock 16) 16
      [1, 2, 3] 15 = .error .badInput ∧
    mbedtls_cmac_generate toyCipher8 (zeroBlock 8) (zeroBlock 8) 8
      [1, 2, 3] 10 = .error .badInput :=
  ⟨by decide, by decide,
   (cmac_tag_length_validation toyCipher (zeroBlock 16) (zeroBlock 16) 16
      [1, 2, 3] 15 []).2.2.1 (by decide),
   (cmac_tag_length_validation toyCipher8 (zeroBlock 8) (zeroBlock 8) 8
      [1, 2, 3] 10 []).2.2.1 (by decide)⟩

theorem toyCipher_length : ∀ x : List Nat, (toyCipher x).length = 16 := by
  intro x
  simp [toyCipher]

theorem rawTag_length (E : List Nat → List Nat) (K1 K2 : List Nat)
    (b : Nat) (m : List Nat) (hE : ∀ x, (E x).length = b) :
    (rawTag E K1 K2 b m).length = b := by
  rw [rawTag]
  exact hE _

/-- C4: `mbedtls_cmac_verify` compares with a fixed-time, full-length
comparison: the comparison is the accumulate-then-check loop, it
examines exactly `tag.length` byte pairs, and the number of examined
pairs is the same for any two candidate tags of the same length, so it
does not depend on where the first differing byte is. -/
theorem cmac_verify_constant_time (E : List Nat → List Nat)
    (K1 K2 : List Nat) (b : Nat) (m : List Nat) (tag tag' : List Nat)
    (hE : ∀ x, (E x).length = b)
    (hv : validTagLen b tag.length = true)
    (hlen : tag'.length = tag.length) :
    mbedtls_cmac_verify E K1 K2 b m tag =
      (if ctCompare ((rawTag E K1 K2 b m).take tag.length) tag = 0
       then .ok () else .error .verifyFailed) ∧
    verifySteps E K1 K2 b m tag = tag.length ∧
    verifySteps E K1 K2 b m tag' = verifySteps E K1 K2 b m tag := by
  have hraw : (rawTag E K1 K2 b m).length = b := rawTag_length E K1 K2 b m hE
  have htb : tag.length ≤ b := by
    rw [validTagLen] at hv
    simp only [Bool.and_eq_true, decide_eq_true_eq] at hv
    exact hv.1.2
  have hsteps : verifySteps E K1 K2 b m tag = tag.length := by
    rw [verifySteps, if_pos hv, ctSteps_length, List.length_take, hraw]
    omega
  refine ⟨?_, hsteps, ?_⟩
  · rw [mbedtls_cmac_verify, if_pos hv]
  · have hv' : validTagLen b tag'.length = true := by rw [hlen]; exact hv
    have hsteps' : verifySteps E K1 K2 b m tag' = tag'.length := by
      rw [verifySteps, if_pos hv', ctSteps_length, List.length_take, hraw]
      omega
    rw [hsteps, hsteps', hlen]

/-- Closed instance of `cmac_verify_constant_time`: two same-length
candidate tags, one differing from the true tag in its first byte and
one in its last, are compared in the same number of steps. -/
theorem cmac_verify_constant_time_witness :
    verifySteps toyCipher (zeroBlock 16) (zeroBlock 16) 16 [5]
      [0, 0, 0, 1] = ([0, 0, 0, 1] : List Nat).length ∧
    verifySteps toyCipher (zeroBlock 16) (zeroBlock 16) 16 [5]
      [1, 0, 0, 0] = verifySteps toyCipher (zeroBlock 16) (zeroBlock 16) 16 [5]
      [0, 0, 0, 1] :=
  ⟨(cmac_verify_constant_time toyCipher (zeroBlock 16) (zeroBlock 16) 16 [5]
      [0, 0, 0, 1] [1, 0, 0, 0] toyCipher_length (by decide) (by decide)).2.1,
   (cmac_verify_constant_time toyCipher (zeroBlock 16) (zeroBlock 16) 16 [5]
      [0, 0, 0, 1] [1, 0, 0, 0] toyCipher_length (by decide) (by decide)).2.2⟩

/-- C5: verifying the tag produced by generate on the same message and
tag length succeeds, and every candidate tag of the same length whose
bytes differ from the recomputed truncated tag is rejected with
`verifyFailed`. -/
theorem cmac_verify_generate_agreement (E : List Nat → List Nat)
    (K1 K2 : List Nat) (b : Nat) (m : List Nat) (t : Nat)
    (tagOut tag : List Nat)
    (hE : ∀ x, (E x).length = b)
    (ht : validTagLen b t = true) :
    (mbedtls_cmac_generate E K1 K2 b m t = .ok tagOut →
      mbedtls_cmac_verify E K1 K2 b m tagOut = .ok ()) ∧
    (tag.length = t → tag ≠ (rawTag E K1 K2 b m).take t →
      mbedtls_cmac_verify E K1 K2 b m tag = .error .verifyFailed) := by
  have hraw : (rawTag E K1 K2 b m).length = b := rawTag_length E K1 K2 b m hE
  have htb : t ≤ b := by
    rw [validTagLen] at ht
    simp only [Bool.and_eq_true, decide_eq_true_eq] at ht
    exact ht.1.2
  have htake : ((rawTag E K1 K2 b m).take t).length = t := by
    rw [List.length_take, hraw]
    omega
  constructor
  · intro hgen
    rw [mbedtls_cmac_generate, if_pos ht] at hgen
    have hout : tagOut = (rawTag E K1 K2 b m).take t := by
      cases hgen
      rfl
    subst hout
    rw [mbedtls_cmac_verify, if_pos (by rw [htake]; exact ht), htake,
      if_pos (ctCompare_self _)]
  · intro hlen hne
    rw [mbedtls_cmac_verify, if_pos (by rw [hlen]; exact ht), hlen, if_neg]
    rw [ctCompare_eq_zero_iff _ _ (by rw [htake, hlen])]
    intro heq
    exact hne heq.symm

/-- Closed instance of `cmac_verify_generate_agreement`: the generated
4-byte tag over a 1-byte message verifies, and an all-zero candidate of
the same length is rejected. -/
theorem cmac_verify_generate_agreement_witness :
    mbedtls_cmac_verify toyCipher (zeroBlock 16) (zeroBlock 16) 16 [5]
      ((rawTag toyCipher (zeroBlock 16) (zeroBlock 16) 16 [5]).take 4) =
      .ok () ∧
    mbedtls_cmac_verify toyCipher (zeroBlock 16) (zeroBlock 16) 16 [5]
      [0, 0, 0, 0] = .error .verifyFailed :=
  ⟨(cmac_verify_generate_agreement toyCipher (zeroBlock 16) (zeroBlock 16)
      16 [5] 4 ((rawTag toyCipher (zeroBlock 16) (zeroBlock 16) 16 [5]).take 4)
      [0, 0, 0, 0] toyCipher_length (by decide)).1 rfl,
   (cmac_verify_generate_agreement toyCipher (zeroBlock 16) (zeroBlock 16)
      16 [5] 4 ((rawTag toyCipher (zeroBlock 16) (zeroBlock 16) 16 [5]).take 4)
      [0, 0, 0, 0] toyCipher_length (by decide)).2 (by decide) (by decide)⟩

theorem leftShift1_length : ∀ l : List Nat, (leftShift1 l).length = l.length := by
  intro l
  induction l with
  | nil => rfl
  | cons x tl ih =>
    cases tl with
    | nil => rfl
    | cons y rest => simp [leftShift1, ih]

theorem beNat_lt (l : List Nat) (h : ∀ x ∈ l, x < 256) :
    beNat l < 256 ^ l.length := by
  induction l with
  | nil => simp [beNat]
  | cons x tl ih =>
    have hx : x < 256 := h x (List.mem_cons_self x tl)
    have ht : beNat tl < 256 ^ tl.length :=
      ih fun y hy => h y (List.mem_cons_of_mem x hy)
    show x * 256 ^ tl.length + beNat tl < 256 ^ (x :: tl).length
    calc x * 256 ^ tl.length + beNat tl
        < x * 256 ^ tl.length + 256 ^ tl.length := by omega
      _ = (x + 1) * 256 ^ tl.length := by ring
      _ ≤ 256 * 256 ^ tl.length := Nat.mul_le_mul_right _ hx
      _ = 256 ^ (x :: tl).length := by
          rw [List.length_cons, pow_succ]
          ring

theorem mod_mul_split (c e r Q : Nat) (hr : r < Q) (he : e < 256) :
    ((256 * c + e) * Q + r) % (256 * Q) = e * Q + r := by
  have h1 : e * Q + r < 256 * Q := by
    calc e * Q + r < e * Q + Q := by omega
      _ = (e + 1) * Q := by ring
      _ ≤ 256 * Q := Nat.mul_le_mul_right _ he
  calc ((256 * c + e) * Q + r) % (256 * Q)
      = ((e * Q + r) + (256 * Q) * c) % (256 * Q) := by ring_nf
    _ = (e * Q + r) % (256 * Q) := by rw [Nat.add_mul_mod_self_left]
    _ = e * Q + r := Nat.mod_eq_of_lt h1

theorem div_mul_split (c e r Q : Nat) (hr : r < Q) (he : e < 256) :
    ((256 * c + e) * Q + r) / (256 * Q) = c := by
  have hQ : 0 < Q := by omega
  have h1 : e * Q + r < 256 * Q := by
    calc e * Q + r < e * Q + Q := by omega
      _ = (e + 1) * Q := by ring
      _ ≤ 256 * Q := Nat.mul_le_mul_right _ he
  calc ((256 * c + e) * Q + r) / (256 * Q)
      = ((256 * Q) * c + (e * Q + r)) / (256 * Q) := by ring_nf
    _ = c + (e * Q + r) / (256 * Q) :=
        Nat.mul_add_div (Nat.mul_pos (by norm_num) hQ) _ _
    _ = c := by
        rw [Nat.div_eq_of_lt h1]
        omega

theorem shift_cons_step (x B Q r d : Nat) (hx : x < 256) (hd : d ≤ 1)
    (hdm : Q * d + r = 2 * B) (hr : r < Q) :
    (x * 2 % 256 + d) * Q + r = 2 * (x * Q + B) % (256 * Q) ∧
    2 * (x * Q + B) / (256 * Q) = x / 128 := by
  have he : x * 2 % 256 + d < 256 := by omega
  have hce : 2 * x + d = 256 * (x / 128) + (x * 2 % 256 + d) := by omega
  have key : 2 * (x * Q + B) =
      (256 * (x / 128) + (x * 2 % 256 + d)) * Q + r := by
    calc 2 * (x * Q + B) = 2 * x * Q + 2 * B := by ring
      _ = 2 * x * Q + (Q * d + r) := by rw [hdm]
      _ = (2 * x + d) * Q + r := by ring
      _ = (256 * (x / 128) + (x * 2 % 256 + d)) * Q + r := by rw [hce]
  constructor
  · rw [key, mod_mul_split _ _ _ _ hr he]
  · rw [key, div_mul_split _ _ _ _ hr he]

theorem leftShift1_beNat (l : List Nat) (h : ∀ x ∈ l, x < 256) :
    beNat (leftShift1 l) = 2 * beNat l % 256 ^ l.length ∧
    2 * beNat l / 256 ^ l.length = l.headD 0 / 128 := by
  induction l with
  | nil => simp [leftShift1, beNat]
  | cons x tl ih =>
    have hx : x < 256 := h x (List.mem_cons_self x tl)
    have htl : ∀ z ∈ tl, z < 256 := fun z hz => h z (List.mem_cons_of_mem x hz)
    cases tl with
    | nil =>
      constructor
      · show beNat [x * 2 % 256] = 2 * beNat [x] % 256 ^ 1
        simp [beNat]
        omega
      · show 2 * beNat [x] / 256 ^ 1 = ([x] : List Nat).headD 0 / 128
        simp [beNat]
        omega
    | cons y rest =>
      obtain ⟨ih1, ih2⟩ := ih htl
      have hy : y < 256 := htl y (List.mem_cons_self y rest)
      have hQpos : 0 < 256 ^ (y :: rest).length := by positivity
      have hr : 2 * beNat (y :: rest) % 256 ^ (y :: rest).length <
          256 ^ (y :: rest).length := Nat.mod_lt _ hQpos
      have hd1 : y / 128 ≤ 1 := by omega
      have hdm : 256 ^ (y :: rest).length * (y / 128) +
          2 * beNat (y :: rest) % 256 ^ (y :: rest).length =
          2 * beNat (y :: rest) := by
        have h0 := Nat.div_add_mod (2 * beNat (y :: rest))
          (256 ^ (y :: rest).length)
        rw [ih2] at h0
        simpa using h0
      have hstep := shift_cons_step x (beNat (y :: rest))
        (256 ^ (y :: rest).length)
        (2 * beNat (y :: rest) % 256 ^ (y :: rest).length)
        (y / 128) hx hd1 hdm hr
      have hpow : (256 : Nat) ^ ((x :: y :: rest) : List Nat).length =
          256 * 256 ^ (y :: rest).length := by
        rw [List.length_cons, pow_succ, Nat.mul_comm]
      have hbe : beNat (x :: y :: rest) =
          x * 256 ^ (y :: rest).length + beNat (y :: rest) := rfl
      constructor
      · have hunfold : beNat (leftShift1 (x :: y :: rest)) =
            (x * 2 % 256 + y / 128) * 256 ^ (y :: rest).length +
              beNat (leftShift1 (y :: rest)) := by
          show (x * 2 % 256 + y / 128) *
              256 ^ (leftShift1 (y :: rest)).length +
              beNat (leftShift1 (y :: rest)) = _
          rw [leftShift1_length]
        rw [hunfold, ih1, hpow, hbe]
        exact hstep.1
      · show 2 * beNat (x :: y :: rest) /
            256 ^ ((x :: y :: rest) : List Nat).length = _
        rw [hpow, hbe]
        simpa using hstep.2

/-- C3: subkey derivation computes L = E(all-zero block), K1 as the
1-bit left shift of L XORed with the constant Rb (0x1B for block size 8,
0x87 for block size 16) exactly when the top bit of L is set, K2
likewise from K1, where the left shift treats the block as a big-endian
integer, discarding the carried-out top bit and shifting in 0. -/
theorem cmac_subkey_derivation (E : List Nat → List Nat) (b : Nat)
    (l : List Nat) (hb : b = 8 ∨ b = 16) (hl : ∀ x ∈ l, x < 256) :
    deriveK1 E b = (if msb (E (zeroBlock b))
      then xorBytes (leftShift1 (E (zeroBlock b))) (rbBlock b)
      else leftShift1 (E (zeroBlock b))) ∧
    deriveK2 E b = (if msb (deriveK1 E b)
      then xorBytes (leftShift1 (deriveK1 E b)) (rbBlock b)
      else leftShift1 (deriveK1 E b)) ∧
    (b = 8 → rbConst b = 0x1B) ∧ (b = 16 → rbConst b = 0x87) ∧
    beNat (leftShift1 l) = 2 * beNat l % 2 ^ (8 * l.length) ∧
    (msb l = true ↔ 2 * beNat l / 2 ^ (8 * l.length) = 1) := by
  have hpow : (2 : Nat) ^ (8 * l.length) = 256 ^ l.length := by
    rw [pow_mul]
    norm_num
  obtain ⟨h1, h2⟩ := leftShift1_beNat l hl
  refine ⟨rfl, rfl, fun h => by rw [h]; decide, fun h => by rw [h]; decide,
    ?_, ?_⟩
  · rw [hpow]
    exact h1
  · rw [hpow, h2, msb]
    cases l with
    | nil => simp
    | cons a tl =>
      have ha : a < 256 := hl a (List.mem_cons_self a tl)
      simp only [List.headD_cons, decide_eq_true_eq]
      omega

/-- Closed instance of `cmac_subkey_derivation` at the toy cipher and a
concrete two-byte block with its top bit set. -/
theorem cmac_subkey_derivation_witness :
    ((16 : Nat) = 8 ∨ (16 : Nat) = 16) ∧
    deriveK1 toyCipher 16 = (if msb (toyCipher (zeroBlock 16))
      then xorBytes (leftShift1 (toyCipher (zeroBlock 16))) (rbBlock 16)
      else leftShift1 (toyCipher (zeroBlock 16))) ∧
    beNat (leftShift1 [0x80, 0x01]) =
      2 * beNat [0x80, 0x01] % 2 ^ (8 * ([0x80, 0x01] : List Nat).length) :=
  ⟨Or.inr rfl,
   (cmac_subkey_derivation toyCipher 16 [0x80, 0x01] (Or.inr rfl)
      (by decide)).1,
   (cmac_subkey_derivation toyCipher 16 [0x80, 0x01] (Or.inr rfl)
      (by decide)).2.2.2.2.1⟩

/-- A toy keyed block cipher family for concrete instantiations. -/
def toyAES (k x : List Nat) : List Nat := toyCipher (k ++ x)

/-- A concrete keyed context used to instantiate lifecycle theorems. -/
def sampleCtx : mbedtls_cmac_context :=
  { bound := true, blockSize := 16, K1 := some [9, 9], K2 := some [7, 7] }

/-- C7: `mbedtls_cmac_setkey` rejects any block size other than 8 and 16
bytes with `badInput`; on success it binds the cipher and stores both
freshly derived subkeys; re-running it replaces the binding and
re-derives both subkeys independently of the previous state, and the
previous subkeys are overwritten with zeros first. -/
theorem cmac_setkey_spec (ctx ctx2 : mbedtls_cmac_context) (b : Nat)
    (E : List Nat → List Nat) (l1 l2 : List Nat) :
    (¬(b = 8 ∨ b = 16) → mbedtls_cmac_setkey ctx b E = .error .badInput) ∧
    (b = 8 ∨ b = 16 →
      mbedtls_cmac_setkey ctx b E =
        .ok { bound := true, blockSize := b,
              K1 := some (deriveK1 E b), K2 := some (deriveK2 E b) }) ∧
    mbedtls_cmac_setkey ctx b E = mbedtls_cmac_setkey ctx2 b E ∧
    (ctx.K1 = some l1 →
      (eraseSubkeys ctx).K1 = some (List.replicate l1.length 0)) ∧
    (ctx.K2 = some l2 →
      (eraseSubkeys ctx).K2 = some (List.replicate l2.length 0)) := by
  refine ⟨?_, ?_, ?_, ?_, ?_⟩
  · intro h
    rw [mbedtls_cmac_setkey, if_neg h]
  · intro h
    rw [mbedtls_cmac_setkey, if_pos h]
  · by_cases h : b = 8 ∨ b = 16
    · simp [mbedtls_cmac_setkey, h]
    · simp [mbedtls_cmac_setkey, h]
  · intro h
    rw [eraseSubkeys]
    simp [h]
  · intro h
    rw [eraseSubkeys]
    simp [h]

/-- Closed instance of `cmac_setkey_spec`: block size 12 is rejected,
block size 16 is accepted and stores both subkeys, and a stale subkey is
zeroized by the erasure step. -/
theorem cmac_setkey_spec_witness :
    mbedtls_cmac_setkey mbedtls_cmac_init 12 toyCipher =
      .error .badInput ∧
    mbedtls_cmac_setkey mbedtls_cmac_init 16 toyCipher =
      .ok { bound := true, blockSize := 16,
            K1 := some (deriveK1 toyCipher 16),
            K2 := some (deriveK2 toyCipher 16) } ∧
    (eraseSubkeys sampleCtx).K1 =
      some (List.replicate ([9, 9] : List Nat).length 0) :=
  ⟨(cmac_setkey_spec mbedtls_cmac_init mbedtls_cmac_init 12 toyCipher
      [1, 2] [3, 4]).1 (by decide),
   (cmac_setkey_spec mbedtls_cmac_init mbedtls_cmac_init 16 toyCipher
      [1, 2] [3, 4]).2.1 (by decide),
   (cmac_setkey_spec sampleCtx mbedtls_cmac_init 16
      toyCipher [9, 9] [7, 7]).2.2.2.1 rfl⟩

/-- C9: `mbedtls_cmac_free` overwrites the allocated subkeys with zeros
before releasing them, releases the cipher binding, is idempotent, and
on a never-keyed context yields the same freed state. -/
theorem cmac_free_idempotent_zeroizing (ctx : mbedtls_cmac_context)
    (l1 l2 : List Nat) :
    mbedtls_cmac_free ctx = mbedtls_cmac_free (eraseSubkeys ctx) ∧
    (ctx.K1 = some l1 →
      (eraseSubkeys ctx).K1 = some (List.replicate l1.length 0)) ∧
    (ctx.K2 = some l2 →
      (eraseSubkeys ctx).K2 = some (List.replicate l2.length 0)) ∧
    mbedtls_cmac_free (mbedtls_cmac_free ctx) = mbedtls_cmac_free ctx ∧
    mbedtls_cmac_free mbedtls_cmac_init = mbedtls_cmac_free ctx ∧
    (mbedtls_cmac_free ctx).K1 = none ∧
    (mbedtls_cmac_free ctx).K2 = none ∧
    (mbedtls_cmac_free ctx).bound = false := by
  refine ⟨rfl, ?_, ?_, rfl, rfl, rfl, rfl, rfl⟩
  · intro h
    rw [eraseSubkeys]
    simp [h]
  · intro h
    rw [eraseSubkeys]
    simp [h]

/-- Closed instance of `cmac_free_idempotent_zeroizing` on a keyed
context with two-byte subkeys. -/
theorem cmac_free_idempotent_zeroizing_witness :
    sampleCtx.K1 = some [9, 9] ∧
    mbedtls_cmac_free (mbedtls_cmac_free sampleCtx) =
      mbedtls_cmac_free sampleCtx ∧
    (eraseSubkeys sampleCtx).K1 =
      some (List.replicate ([9, 9] : List Nat).length 0) :=
  ⟨rfl,
   (cmac_free_idempotent_zeroizing sampleCtx [9, 9] [7, 7]).2.2.2.1,
   (cmac_free_idempotent_zeroizing sampleCtx [9, 9] [7, 7]).2.1 rfl⟩

/-- C8: `mbedtls_aes_cmac_prf_128` returns the 16-byte full CMAC of the
message under the AES-128 key, where the key is the PRF key itself when
it is exactly 16 bytes long and otherwise the CMAC of the PRF key under
the all-zero 16-byte key; `cmacTag16` is exactly the successful output
of `mbedtls_cmac_generate` with tag length 16. -/
theorem aes_cmac_prf_128_spec (AES : List Nat → List Nat → List Nat)
    (key m : List Nat) (E16 : List Nat → List Nat)
    (hAES : ∀ k x, (AES k x).length = 16) :
    (key.length = 16 →
      mbedtls_aes_cmac_prf_128 AES key m = cmacTag16 (AES key) m) ∧
    (key.length ≠ 16 →
      mbedtls_aes_cmac_prf_128 AES key m =
        cmacTag16 (AES (cmacTag16 (AES (List.replicate 16 0)) key)) m) ∧
    (mbedtls_aes_cmac_prf_128 AES key m).length = 16 ∧
    mbedtls_cmac_generate E16 (deriveK1 E16 16) (deriveK2 E16 16) 16 m 16 =
      .ok (cmacTag16 E16 m) := by
  have hlen : ∀ (k m' : List Nat), (cmacTag16 (AES k) m').length = 16 := by
    intro k m'
    rw [cmacTag16, List.length_take,
      rawTag_length (AES k) _ _ 16 m' (hAES k)]
    exact Nat.min_self 16
  refine ⟨?_, ?_, ?_, ?_⟩
  · intro h
    rw [mbedtls_aes_cmac_prf_128]
    simp [h]
  · intro h
    rw [mbedtls_aes_cmac_prf_128]
    simp [h]
  · rw [mbedtls_aes_cmac_prf_128]
    by_cases h : key.length = 16 <;> simp [h, hlen]
  · rw [mbedtls_cmac_generate, if_pos (by decide), cmacTag16]

/-- Closed instance of `aes_cmac_prf_128_spec` at a 16-byte key and a
shorter key. -/
theorem aes_cmac_prf_128_spec_witness :
    mbedtls_aes_cmac_prf_128 toyAES (zeroBlock 16) [7] =
      cmacTag16 (toyAES (zeroBlock 16)) [7] ∧
    mbedtls_aes_cmac_prf_128 toyAES [1, 2, 3] [7] =
      cmacTag16 (toyAES (cmacTag16 (toyAES (List.replicate 16 0))
        [1, 2, 3])) [7] :=
  ⟨(aes_cmac_prf_128_spec toyAES (zeroBlock 16) [7] toyCipher
      fun k x => toyCipher_length (k ++ x)).1 (by decide),
   (aes_cmac_prf_128_spec toyAES [1, 2, 3] [7] toyCipher
      fun k x => toyCipher_length (k ++ x)).2.1 (by decide)⟩

/-- C10: the three CMAC error codes are pairwise distinct and strictly
negative, so a return value of 0 unambiguously denotes success and each
error kind is distinguishable from the others by its return value. -/
theorem cmac_error_codes_distinct_negative :
    MBEDTLS_ERR_CMAC_BAD_INPUT ≠ MBEDTLS_ERR_CMAC_VERIFY_FAILED ∧
    MBEDTLS_ERR_CMAC_BAD_INPUT ≠ MBEDTLS_ERR_CMAC_ALLOC_FAILED ∧
    MBEDTLS_ERR_CMAC_VERIFY_FAILED ≠ MBEDTLS_ERR_CMAC_ALLOC_FAILED ∧
    MBEDTLS_ERR_CMAC_BAD_INPUT < 0 ∧
    MBEDTLS_ERR_CMAC_VERIFY_FAILED < 0 ∧
    MBEDTLS_ERR_CMAC_ALLOC_FAILED < 0 ∧
    (∀ e : CmacError, errCode e ≠ 0) ∧
    (∀ e e' : CmacError, errCode e = errCode e' → e = e') := by
  refine ⟨by decide, by decide, by decide, by decide, by decide, by decide,
          fun e => ?_, fun e e' => ?_⟩
  · cases e <;> decide
  · cases e <;> cases e' <;> decide

/-- C1: for every keyed context and message, the MAC core follows the
RFC 4493 chaining (`C_0` the all-zero block, `C_i = E(C_{i-1} XOR M_i)`,
final step masked by K1 or K2), and on success `mbedtls_cmac_generate`
returns exactly the first `tag_len` bytes of `C_q`. -/
theorem cmac_generate_chaining (E : List Nat → List Nat) (K1 K2 : List Nat)
    (b : Nat) (m : List Nat) (t : Nat) (ht : validTagLen b t = true) :
    chainC E b m 0 = zeroBlock b ∧
    (∀ i : Nat,
      chainC E b m (i + 1) =
        E (xorBytes (chainC E b m i) ((m.drop (i * b)).take b))) ∧
    rawTag E K1 K2 b m =
      E (xorBytes (chainC E b m (numPrefixBlocks b m.length))
          (lastBlockMasked K1 K2 b m)) ∧
    mbedtls_cmac_generate E K1 K2 b m t =
      .ok ((E (xorBytes (chainC E b m (numPrefixBlocks b m.length))
          (lastBlockMasked K1 K2 b m))).take t) := by
  have hraw : rawTag E K1 K2 b m =
      E (xorBytes (chainC E b m (numPrefixBlocks b m.length))
        (lastBlockMasked K1 K2 b m)) := by
    rw [rawTag, chainBlocks, range_chain_foldl]
  refine ⟨rfl, fun i => rfl, hraw, ?_⟩
  rw [mbedtls_cmac_generate, if_pos, hraw]
  exact ht

/-- Closed instance of `cmac_generate_chaining` at a concrete cipher,
message and tag length. -/
theorem cmac_generate_chaining_witness :
    validTagLen 16 16 = true ∧
    mbedtls_cmac_generate toyCipher (zeroBlock 16) (zeroBlock 16) 16
        [1, 2, 3] 16 =
      .ok ((toyCipher (xorBytes (chainC toyCipher 16 [1, 2, 3]
          (numPrefixBlocks 16 ([1, 2, 3] : List Nat).length))
          (lastBlockMasked (zeroBlock 16) (zeroBlock 16) 16 [1, 2, 3]))).take 16) :=
  ⟨by decide,
   (cmac_generate_chaining toyCipher (zeroBlock 16) (zeroBlock 16) 16
      [1, 2, 3] 16 (by decide)).2.2.2⟩

end Cmac
